import Mathlib

/-!
Verification development for the two-pass basic-computer assembler
(`assembler.py`).  The core engine consumes a tokenized, comment-stripped
line sequence (`self.__asm`, a list of lists of lowercase tokens) together
with three instruction tables (`__mri_table`, `__rri_table`, `__ioi_table`)
and produces the location-to-word mapping `self.__bin`.

The embedding below mirrors the source method by method:

* Python dicts keyed by strings become insertion-ordered association lists
  (`Dict`), with `dset` modelling `d[k] = v` (update in place when the key
  exists, append otherwise) and `dget` modelling lookup.
* `__rm_comments` becomes `rmComments`, `__islabel` becomes `islabel`,
  `__format2bin` becomes `hexVal?`/`binStr`/`zfill`/`format2bin`.
* `__first_pass` becomes the per-line transition `fpStep` driven by
  `runSteps`; `__second_pass` becomes the table sweep `sweep` followed by
  the per-line transition `spStep` driven by `runSteps`.
* Python exceptions (IndexError on `line[i]`, ValueError from `int`,
  KeyError from a dict lookup) become the `AsmErr` error type threaded
  through `Except`.
* `str.lower` / `str.startswith` / `str.endswith` / `'I' in s` / `s[:-1]`
  are modelled on the ASCII strings the assembler handles by `pyLower`,
  `isCommentTok`, `islabel`, `pyContains`, `labelName`.
* Numbers (`current_location`, label addresses stored as `str(loc)` and
  re-parsed by `int`) are modelled as `Nat`; the decimal round trip
  `int(str(n))` is the identity and is elided.
-/

/-- One tokenized source line: `self.__asm[i]`, a list of tokens. -/
abbrev Line := List String

/-- Insertion-ordered string-keyed map, the model of a Python `dict`. -/
abbrev Dict (α : Type) := List (String × α)

/-- Python exceptions surfaced by the assembler: `IndexError` from
`line[i]`, `ValueError` from `int(...)` (carrying the offending literal),
`KeyError` from `self.__label_addresses[...]` (carrying the missing key). -/
inductive AsmErr where
  | indexError : AsmErr
  | valueError : String → AsmErr
  | keyError : String → AsmErr
  deriving DecidableEq, Repr

/-- Dict lookup: first entry whose key matches. -/
def dget {α : Type} : Dict α → String → Option α
  | [], _ => none
  | p :: t, k => if p.1 = k then some p.2 else dget t k

/-- Dict assignment `d[k] = v`: update the entry in place when the key is
present (Python dicts keep the original position), append otherwise. -/
def dset {α : Type} : Dict α → String → α → Dict α
  | [], k, v => [(k, v)]
  | p :: t, k, v => if p.1 = k then (k, v) :: t else p :: dset t k v

/-- The key list of a map, in insertion order (`list(d.keys())`). -/
def keysOf {α : Type} (m : Dict α) : List String := m.map Prod.fst

/-- Batch assignment: perform the writes `ws` in order on `m`. -/
def dsets {α : Type} (m : Dict α) (ws : Dict α) : Dict α :=
  ws.foldl (fun acc p => dset acc p.1 p.2) m

/-- Value of the last write for key `k` in the write list `ws`, if any. -/
def lastVal {α : Type} : Dict α → String → Option α
  | [], _ => none
  | p :: t, k =>
    match lastVal t k with
    | some v => some v
    | none => if p.1 = k then some p.2 else none

/-- Left-biased choice on `Option`. -/
def oor {α : Type} : Option α → Option α → Option α
  | some v, _ => some v
  | none, b => b

/-- Python `c.lower()` on the ASCII characters the assembler handles. -/
def pyLowerChar (c : Char) : Char :=
  if 'A' ≤ c ∧ c ≤ 'Z' then Char.ofNat (c.toNat + 32) else c

/-- Python `s.lower()` (ASCII). -/
def pyLower (s : String) : String := String.mk (s.data.map pyLowerChar)

/-- `__islabel`: `string.endswith(',')`. -/
def islabel (s : String) : Bool := s.data.getLast? == some ','

/-- `opcode[:-1]`: strip the trailing label delimiter. -/
def labelName (s : String) : String := String.mk s.data.dropLast

/-- `self.__asm[i][j].startswith('/')`: the token opens a comment. -/
def isCommentTok (t : String) : Bool := t.data.head? == some '/'

/-- Python `'I' in opcode` (single-character membership). -/
def pyContains (s : String) (c : Char) : Bool := s.data.contains c

/-- One hexadecimal digit, as accepted by `int(_, 16)`. -/
def hexDigit? (c : Char) : Option Nat :=
  if '0' ≤ c ∧ c ≤ '9' then some (c.toNat - '0'.toNat)
  else if 'a' ≤ c ∧ c ≤ 'f' then some (c.toNat - 'a'.toNat + 10)
  else if 'A' ≤ c ∧ c ≤ 'F' then some (c.toNat - 'A'.toNat + 10)
  else none

/-- `int(s, 16)` on the plain hexadecimal-digit strings the assembler
feeds it; `none` models the `ValueError` raised on malformed literals. -/
def hexVal? (s : String) : Option Nat :=
  if s.data.isEmpty then none
  else
    s.data.foldl
      (fun acc c =>
        match acc, hexDigit? c with
        | some a, some d => some (a * 16 + d)
        | _, _ => none)
      (some 0)

/-- Binary digits of `n`, most significant first; the first argument is
structural fuel (any fuel `≥ n ≥ 1` yields all digits). -/
def binDigitsFuel : Nat → Nat → List Char
  | 0, _ => []
  | _, 0 => []
  | fuel + 1, n => binDigitsFuel fuel (n / 2) ++ [if n % 2 = 1 then '1' else '0']

/-- Python `'{:b}'.format(n)` for a nonnegative `n`. -/
def binStr (n : Nat) : String :=
  if n = 0 then "0" else String.mk (binDigitsFuel n n)

/-- Python `str.zfill`: left-pad with `'0'` up to `width` (no truncation). -/
def zfill (s : String) (width : Nat) : String :=
  String.mk (List.replicate (width - s.data.length) '0' ++ s.data)

/-- `__format2bin(str(n), 'dec', formatBits)` on the canonical decimal
rendering of `n`; the `'hex'` branch is `hexVal?` composed with this. -/
def format2bin (n : Nat) (formatBits : Nat) : String :=
  zfill (binStr n) formatBits

/-- `__is_pseudo_instruction`'s table of pseudo instructions. -/
def pseudoInstructions : List String := ["org", "end", "dec"]

/-- `__is_pseudo_instruction`: `opcode.lower() in pseudo_instructions`. -/
def isPseudoInstruction (op : String) : Bool :=
  pseudoInstructions.contains (pyLower op)

/-- One iteration of the `__first_pass` loop body on a line, from the state
`(current_location, __address_symbol_table, __label_addresses)`.  `.ok none`
models the `break` on the `end` directive; errors model the exceptions
Python would raise at the corresponding subscript or conversion. -/
def fpStep : Nat × Dict String × Dict Nat → Line →
    Except AsmErr (Option (Nat × Dict String × Dict Nat))
  | (loc, ast, labels), [] => .ok (some (loc, ast, labels))
  | (loc, ast, labels), op :: args =>
    if islabel op then
      match args[0]? with
      | none => .error .indexError
      | some t1 =>
        if t1 ≠ "hex" then
          .ok (some (loc + 1, dset ast (format2bin loc 12) t1,
                dset labels (labelName op) loc))
        else
          match args[1]? with
          | none => .error .indexError
          | some t2 =>
            match hexVal? t2 with
            | none => .error (.valueError t2)
            | some v =>
              .ok (some (loc + 1, dset ast (format2bin loc 12) (format2bin v 16),
                    dset labels (labelName op) loc))
    else if op = "org" then
      match args[0]? with
      | none => .error .indexError
      | some t1 =>
        match hexVal? t1 with
        | none => .error (.valueError t1)
        | some v => .ok (some (v, ast, labels))
    else if op = "end" then
      .ok none
    else
      .ok (some (loc + 1, dset ast (format2bin loc 12) op, labels))

/-- The pre-resolution sweep of `__second_pass` on one stored cell value:
`value` is looked up in the RRI table and then (still the original
`value`) in the IOI table, each hit overwriting the cell. -/
def sweepCell (rri ioi : Dict String) (v : String) : String :=
  let v1 := match dget rri v with
    | some b => b
    | none => v
  match dget ioi v with
  | some b => b
  | none => v1

/-- The pre-resolution sweep of `__second_pass` over the whole
address-symbol table (per-key in-place updates over distinct keys). -/
def sweep (rri ioi : Dict String) (ast : Dict String) : Dict String :=
  ast.map (fun p => (p.1, sweepCell rri ioi p.2))

/-- One iteration of the `__second_pass` line loop, from the state
`(current_location, __address_symbol_table)`.  `.ok none` models the
`break` on the `end` directive (where `__bin` is assigned). -/
def spStep (mri : Dict String) (labels : Dict Nat) :
    Nat × Dict String → Line → Except AsmErr (Option (Nat × Dict String))
  | (loc, ast), [] => .ok (some (loc, ast))
  | (loc, ast), op :: args =>
    if isPseudoInstruction op then
      if pyLower op = "org" then
        match args[0]? with
        | none => .error .indexError
        | some t1 =>
          match hexVal? t1 with
          | none => .error (.valueError t1)
          | some v => .ok (some (v, ast))
      else if pyLower op = "end" then
        .ok none
      else
        .ok (some (loc + 1, ast))
    else
      match dget mri (pyLower op) with
      | none => .ok (some (loc + 1, ast))
      | some operationCode =>
        match args[0]? with
        | none => .error .indexError
        | some operand =>
          match dget labels operand with
          | none => .error (.keyError operand)
          | some addr =>
            let directness := if pyContains op 'I' then "1" else "0"
            .ok (some (loc + 1,
                  dset ast (format2bin loc 12)
                    (directness ++ operationCode ++ format2bin addr 12)))

/-- Drive a per-line transition over the lines: stop at the first error,
return `(state, true)` when the transition halts (the `end` break),
`(state, false)` when the lines are exhausted. -/
def runSteps {σ : Type} (step : σ → Line → Except AsmErr (Option σ)) :
    List Line → σ → Except AsmErr (σ × Bool)
  | [], s => .ok (s, false)
  | l :: rest, s =>
    match step s l with
    | .error e => .error e
    | .ok none => .ok (s, true)
    | .ok (some s') => runSteps step rest s'

/-- `__rm_comments` on one line: drop from the first comment token on. -/
def rmCommentsLine (l : Line) : Line := l.takeWhile (fun t => !(isCommentTok t))

/-- `__rm_comments` over the loaded program. -/
def rmComments (asm : List Line) : List Line := asm.map rmCommentsLine

/-- The address-symbol-table writes `__first_pass` performs from location
`loc` on, in order (obtained by running each line's step on empty tables;
a line writes at most one cell). -/
def fpWrites : List Line → Nat → Dict String
  | [], _ => []
  | l :: rest, loc =>
    match fpStep (loc, [], []) l with
    | .error _ => []
    | .ok none => []
    | .ok (some (loc', ws, _)) => ws ++ fpWrites rest loc'

/-- The label-address writes `__first_pass` performs from location `loc`. -/
def fpLWrites : List Line → Nat → Dict Nat
  | [], _ => []
  | l :: rest, loc =>
    match fpStep (loc, [], []) l with
    | .error _ => []
    | .ok none => []
    | .ok (some (loc', _, lws)) => lws ++ fpLWrites rest loc'

/-- Every token of the line is already lowercase, the invariant `read_code`
establishes with `s.rstrip().lower().split()`. -/
def lineLower (l : Line) : Bool := l.all (fun t => pyLower t == t)

/-- Every token of the program is already lowercase. -/
def linesLower (asm : List Line) : Bool := asm.all lineLower

/-- The mutable state of an `Assembler` object that the two passes read or
write: `__address_symbol_table`, `__label_addresses`, `__bin`, `__asm`. -/
structure AsmSt where
  ast : Dict String
  labels : Dict Nat
  bin : Dict String
  asm : List Line
  deriving DecidableEq, Repr

/-- `Assembler.assemble` on a loaded state: strip comments (mutating
`__asm`), run `__first_pass`, then `__second_pass` (sweep, then the line
loop; `__bin` is assigned only when the `end` break fires).  Returns the
value `assemble` returns (`self.__bin`) together with the updated state. -/
def assembleRun (mri rri ioi : Dict String) (s : AsmSt) :
    Except AsmErr (Dict String × AsmSt) :=
  let asm' := rmComments s.asm
  match runSteps fpStep asm' (0, s.ast, s.labels) with
  | .error e => .error e
  | .ok ((_, ast1, labels1), _) =>
    match runSteps (spStep mri labels1) asm' (0, sweep rri ioi ast1) with
    | .error e => .error e
    | .ok ((_, astS), halted) =>
      let binF := if halted then astS else s.bin
      .ok (binF, ⟨astS, labels1, binF, asm'⟩)

/-- `Assembler.assemble` on a freshly constructed object (empty tables,
program `asm` loaded): the mapping the caller receives. -/
def assemble (mri rri ioi : Dict String) (asm : List Line) :
    Except AsmErr (Dict String) :=
  match assembleRun mri rri ioi ⟨[], [], [], asm⟩ with
  | .error e => .error e
  | .ok (b, _) => .ok b

/-! ### Dict lemmas -/

theorem mem_keysOf_cons {α : Type} (p : String × α) (t : Dict α) (k : String) :
    k ∈ keysOf (p :: t) ↔ p.1 = k ∨ k ∈ keysOf t := by
  simp [keysOf, eq_comm]

theorem dget_dset {α : Type} (m : Dict α) (k k' : String) (v : α) :
    dget (dset m k v) k' = if k = k' then some v else dget m k' := by
  induction m with
  | nil => simp [dset, dget]
  | cons p t ih =>
    by_cases h : p.1 = k
    · rw [show dset (p :: t) k v = (k, v) :: t by simp [dset, h]]
      by_cases h' : k = k'
      · simp [dget, h']
      · have hp : ¬ p.1 = k' := fun he => h' (h.symm.trans he)
        simp [dget, h', hp]
    · rw [show dset (p :: t) k v = p :: dset t k v by simp [dset, h]]
      by_cases h' : p.1 = k'
      · have hkk' : ¬ k = k' := fun he => h (he ▸ h')
        simp [dget, h', hkk']
      · simp [dget, h', ih]

theorem keysOf_dset_mem {α : Type} (m : Dict α) (k : String) (v : α)
    (h : k ∈ keysOf m) : keysOf (dset m k v) = keysOf m := by
  induction m with
  | nil => simp [keysOf] at h
  | cons p t ih =>
    by_cases hp : p.1 = k
    · rw [show dset (p :: t) k v = (k, v) :: t by simp [dset, hp]]
      simp [keysOf, hp]
    · rw [show dset (p :: t) k v = p :: dset t k v by simp [dset, hp]]
      have ht : k ∈ keysOf t := by
        rcases (mem_keysOf_cons p t k).mp h with h1 | h1
        · exact absurd h1 hp
        · exact h1
      have hrec := ih ht
      simp only [keysOf, List.map_cons] at hrec ⊢
      rw [hrec]

theorem keysOf_dset_not_mem {α : Type} (m : Dict α) (k : String) (v : α)
    (h : k ∉ keysOf m) : keysOf (dset m k v) = keysOf m ++ [k] := by
  induction m with
  | nil => simp [keysOf, dset]
  | cons p t ih =>
    have hp : ¬ p.1 = k := fun he => h ((mem_keysOf_cons p t k).mpr (Or.inl he))
    have ht : k ∉ keysOf t := fun hm => h ((mem_keysOf_cons p t k).mpr (Or.inr hm))
    rw [show dset (p :: t) k v = p :: dset t k v by simp [dset, hp]]
    have := ih ht
    simp [keysOf] at this ⊢
    exact this

theorem dget_eq_none_iff {α : Type} (m : Dict α) (k : String) :
    dget m k = none ↔ k ∉ keysOf m := by
  induction m with
  | nil => simp [dget, keysOf]
  | cons p t ih =>
    by_cases h : p.1 = k
    · simp [dget, h, mem_keysOf_cons]
    · rw [show dget (p :: t) k = dget t k by simp [dget, h]]
      rw [ih]
      constructor
      · intro hk hmem
        rcases (mem_keysOf_cons p t k).mp hmem with h1 | h1
        · exact h h1
        · exact hk h1
      · intro hk h1
        exact hk ((mem_keysOf_cons p t k).mpr (Or.inr h1))

theorem dget_isSome_iff {α : Type} (m : Dict α) (k : String) :
    (dget m k).isSome = true ↔ k ∈ keysOf m := by
  rcases hd : dget m k with _ | v
  · simpa [hd] using (dget_eq_none_iff m k).mp hd
  · have h1 : ¬ dget m k = none := by simp [hd]
    have h2 : k ∈ keysOf m := by
      by_contra hc
      exact h1 ((dget_eq_none_iff m k).mpr hc)
    simp [hd, h2]

theorem dget_dsets {α : Type} (ws m : Dict α) (k : String) :
    dget (dsets m ws) k = oor (lastVal ws k) (dget m k) := by
  induction ws generalizing m with
  | nil => simp [dsets, lastVal, oor]
  | cons p t ih =>
    have hstep : dsets m (p :: t) = dsets (dset m p.1 p.2) t := rfl
    rw [hstep, ih]
    rcases hl : lastVal t k with _ | v
    · rw [show lastVal (p :: t) k = if p.1 = k then some p.2 else none by
        simp [lastVal, hl]]
      rw [dget_dset]
      by_cases h : p.1 = k <;> simp [h, oor]
    · rw [show lastVal (p :: t) k = some v by simp [lastVal, hl]]
      simp [oor]

theorem lastVal_eq_none_of_not_mem {α : Type} (ws : Dict α) (k : String)
    (h : k ∉ keysOf ws) : lastVal ws k = none := by
  induction ws with
  | nil => simp [lastVal]
  | cons p t ih =>
    have hp : ¬ p.1 = k := fun he => h ((mem_keysOf_cons p t k).mpr (Or.inl he))
    have ht : k ∉ keysOf t := fun hm => h ((mem_keysOf_cons p t k).mpr (Or.inr hm))
    simp [lastVal, ih ht, hp]

theorem lastVal_isSome_of_mem {α : Type} (ws : Dict α) (k : String)
    (h : k ∈ keysOf ws) : (lastVal ws k).isSome = true := by
  induction ws with
  | nil => simp [keysOf] at h
  | cons p t ih =>
    rcases hl : lastVal t k with _ | v
    · have ht : k ∉ keysOf t := by
        intro hm
        have := ih hm
        simp [hl] at this
      have hp : p.1 = k := by
        rcases (mem_keysOf_cons p t k).mp h with h1 | h1
        · exact h1
        · exact absurd h1 ht
      simp [lastVal, hl, hp]
    · simp [lastVal, hl]

theorem keysOf_dsets {α : Type} (ws m : Dict α)
    (h : ∀ k, k ∈ keysOf ws → k ∈ keysOf m) : keysOf (dsets m ws) = keysOf m := by
  induction ws generalizing m with
  | nil => rfl
  | cons p t ih =>
    have hstep : dsets m (p :: t) = dsets (dset m p.1 p.2) t := rfl
    have hp : p.1 ∈ keysOf m := h p.1 ((mem_keysOf_cons p t p.1).mpr (Or.inl rfl))
    have hk : keysOf (dset m p.1 p.2) = keysOf m := keysOf_dset_mem m p.1 p.2 hp
    rw [hstep, ih (dset m p.1 p.2) (fun k hkmem => by
      rw [hk]
      exact h k ((mem_keysOf_cons p t k).mpr (Or.inr hkmem))), hk]

theorem mem_keysOf_dsets {α : Type} (ws m : Dict α) (k : String)
    (h : k ∈ keysOf ws) : k ∈ keysOf (dsets m ws) := by
  have hs := lastVal_isSome_of_mem ws k h
  rcases hl : lastVal ws k with _ | v
  · simp [hl] at hs
  · have : dget (dsets m ws) k = some v := by
      rw [dget_dsets, hl]
      rfl
    exact (dget_isSome_iff (dsets m ws) k).mp (by simp [this])

theorem nodup_keysOf_dset {α : Type} (m : Dict α) (k : String) (v : α)
    (h : (keysOf m).Nodup) : (keysOf (dset m k v)).Nodup := by
  by_cases hm : k ∈ keysOf m
  · rwa [keysOf_dset_mem m k v hm]
  · rw [keysOf_dset_not_mem m k v hm]
    rw [List.nodup_append]
    exact ⟨h, List.nodup_singleton k, by
      intro a ha hb
      simp at hb
      exact hm (hb ▸ ha)⟩

theorem nodup_keysOf_dsets {α : Type} (ws m : Dict α)
    (h : (keysOf m).Nodup) : (keysOf (dsets m ws)).Nodup := by
  induction ws generalizing m with
  | nil => exact h
  | cons p t ih =>
    exact ih (dset m p.1 p.2) (nodup_keysOf_dset m p.1 p.2 h)

theorem dict_ext {α : Type} (m m' : Dict α)
    (hk : keysOf m = keysOf m') (hnd : (keysOf m).Nodup)
    (hv : ∀ k, dget m k = dget m' k) : m = m' := by
  induction m generalizing m' with
  | nil =>
    cases m' with
    | nil => rfl
    | cons p t => simp [keysOf] at hk
  | cons p t ih =>
    cases m' with
    | nil => simp [keysOf] at hk
    | cons q t' =>
      have hkey : p.1 = q.1 := by
        simp only [keysOf, List.map_cons] at hk
        exact (List.cons.injEq _ _ _ _).mp hk |>.1
      have hkt : keysOf t = keysOf t' := by
        simp only [keysOf, List.map_cons] at hk
        exact (List.cons.injEq _ _ _ _).mp hk |>.2
      have hpt : p.1 ∉ keysOf t := by
        simp only [keysOf, List.map_cons] at hnd
        exact (List.nodup_cons.mp hnd).1
      have hndt : (keysOf t).Nodup := by
        simp only [keysOf, List.map_cons] at hnd
        exact (List.nodup_cons.mp hnd).2
      have hval : p.2 = q.2 := by
        have hvp := hv p.1
        rw [show dget (p :: t) p.1 = some p.2 by simp [dget],
          show dget (q :: t') p.1 = some q.2 by simp [dget, hkey.symm]] at hvp
        exact Option.some.inj hvp
      have hvt : ∀ k, dget t k = dget t' k := by
        intro k
        by_cases hkp : k = p.1
        · subst hkp
          rw [(dget_eq_none_iff t p.1).mpr hpt,
            (dget_eq_none_iff t' p.1).mpr (hkt ▸ hpt)]
        · have hp1k : ¬ p.1 = k := fun he => hkp he.symm
          have hq1k : ¬ q.1 = k := fun he => hkp ((hkey ▸ he : (p.1 : String) = k)).symm
          have hvk := hv k
          rwa [show dget (p :: t) k = dget t k by
              simp only [dget]; rw [if_neg hp1k],
            show dget (q :: t') k = dget t' k by
              simp only [dget]; rw [if_neg hq1k]] at hvk
      have := ih t' hkt hndt hvt
      calc p :: t = (p.1, p.2) :: t := rfl
        _ = (q.1, q.2) :: t' := by rw [hkey, hval, this]
        _ = q :: t' := rfl

theorem dsets_fix {α : Type} (ws m : Dict α)
    (h : keysOf m = keysOf (dsets [] ws)) : dsets m ws = dsets [] ws := by
  have hm : ∀ k, k ∈ keysOf ws → k ∈ keysOf m := by
    intro k hk
    rw [h]
    exact mem_keysOf_dsets ws [] k hk
  have hkeys : keysOf (dsets m ws) = keysOf m := keysOf_dsets ws m hm
  have hnd : (keysOf (dsets m ws)).Nodup := by
    rw [hkeys, h]
    exact nodup_keysOf_dsets ws [] (by simp [keysOf])
  apply dict_ext
  · rw [hkeys, h]
  · exact hnd
  · intro k
    rw [dget_dsets, dget_dsets]
    rcases hl : lastVal ws k with _ | v
    · have hknot : k ∉ keysOf (dsets [] ws) := by
        intro hmem
        have hsome := (dget_isSome_iff (dsets [] ws) k).mpr hmem
        rw [dget_dsets, hl] at hsome
        simp [oor, dget] at hsome
      have : dget m k = none := (dget_eq_none_iff m k).mpr (by rwa [h])
      simp [oor, this, dget]
    · simp [oor]

theorem keysOf_sweep (rri ioi : Dict String) (m : Dict String) :
    keysOf (sweep rri ioi m) = keysOf m := by
  induction m with
  | nil => rfl
  | cons p t ih =>
    simp only [sweep, keysOf, List.map_cons] at ih ⊢
    rw [ih]

theorem dget_sweep (rri ioi : Dict String) (m : Dict String) (k : String) :
    dget (sweep rri ioi m) k = (dget m k).map (sweepCell rri ioi) := by
  induction m with
  | nil => simp [sweep, dget]
  | cons p t ih =>
    by_cases h : p.1 = k
    · simp [sweep, dget, h]
    · simp only [sweep, List.map_cons] at ih ⊢
      rw [show dget ((p.1, sweepCell rri ioi p.2) :: List.map _ t) k =
          dget (List.map (fun p => (p.1, sweepCell rri ioi p.2)) t) k by
        simp [dget, h]]
      rw [show dget (p :: t) k = dget t k by simp [dget, h]]
      exact ih

theorem runSteps_append {σ : Type} (step : σ → Line → Except AsmErr (Option σ))
    (pre rest : List Line) (s : σ) :
    runSteps step (pre ++ rest) s =
      match runSteps step pre s with
      | .error e => .error e
      | .ok (s', true) => .ok (s', true)
      | .ok (s', false) => runSteps step rest s' := by
  induction pre generalizing s with
  | nil => simp [runSteps]
  | cons l pre' ih =>
    rw [List.cons_append]
    rcases hstep : step s l with e | os
    · simp [runSteps, hstep]
    · rcases os with _ | s'
      · simp [runSteps, hstep]
      · simp only [runSteps, hstep]
        exact ih s'

/-! ### Relating the two passes line by line -/

theorem pseudo_cases (op : String) (h : pyLower op = op)
    (hp : isPseudoInstruction op = true) :
    op = "org" ∨ op = "end" ∨ op = "dec" := by
  unfold isPseudoInstruction pseudoInstructions at hp
  rw [h] at hp
  simpa using hp

theorem label_not_pseudo (op : String) (hlab : islabel op = true)
    (h : pyLower op = op) : isPseudoInstruction op = false := by
  cases hps : isPseudoInstruction op
  · rfl
  · rcases pseudo_cases op h hps with h1 | h1 | h1 <;> subst h1 <;>
      exact absurd hlab (by decide)

theorem lineLower_head (op : String) (args : List String)
    (h : lineLower (op :: args) = true) : pyLower op = op := by
  have := (List.all_eq_true.mp h) op (by simp)
  simpa using this

theorem step_pair (mri : Dict String) (lbls' : Dict Nat) (l : Line)
    (hlow : lineLower l = true) (loc : Nat) (ast : Dict String)
    (labels : Dict Nat) (a' : Dict String) :
    (∃ e, fpStep (loc, ast, labels) l = .error e ∧
        fpStep (loc, ([] : Dict String), ([] : Dict Nat)) l = .error e)
    ∨ (fpStep (loc, ast, labels) l = .ok none ∧
        fpStep (loc, ([] : Dict String), ([] : Dict Nat)) l = .ok none ∧
        spStep mri lbls' (loc, a') l = .ok none)
    ∨ (∃ loc' hw hlw,
        fpStep (loc, ast, labels) l =
          .ok (some (loc', dsets ast hw, dsets labels hlw)) ∧
        fpStep (loc, ([] : Dict String), ([] : Dict Nat)) l =
          .ok (some (loc', hw, hlw)) ∧
        ((∃ e, spStep mri lbls' (loc, a') l = .error e)
          ∨ spStep mri lbls' (loc, a') l = .ok (some (loc', a'))
          ∨ (∃ w, spStep mri lbls' (loc, a') l =
                .ok (some (loc', dset a' (format2bin loc 12) w)) ∧
              format2bin loc 12 ∈ keysOf hw))) := by
  cases l with
  | nil =>
    exact Or.inr (Or.inr ⟨loc, [], [], rfl, rfl, Or.inr (Or.inl rfl)⟩)
  | cons op args =>
    have hople : pyLower op = op := lineLower_head op args hlow
    cases hlab : islabel op with
    | true =>
      have hps : isPseudoInstruction op = false := label_not_pseudo op hlab hople
      rcases h0 : args[0]? with _ | t1
      · exact Or.inl ⟨.indexError, by simp [fpStep, hlab, h0], by simp [fpStep, hlab, h0]⟩
      · have hsp : (∃ e, spStep mri lbls' (loc, a') (op :: args) = .error e)
            ∨ spStep mri lbls' (loc, a') (op :: args) = .ok (some (loc + 1, a'))
            ∨ (∃ w, spStep mri lbls' (loc, a') (op :: args) =
                .ok (some (loc + 1, dset a' (format2bin loc 12) w))) := by
          rcases hmr : dget mri (pyLower op) with _ | opc
          · exact Or.inr (Or.inl (by simp [spStep, hps, hmr]))
          · rcases hlb : dget lbls' t1 with _ | addr
            · exact Or.inl ⟨.keyError t1, by simp [spStep, hps, hmr, h0, hlb]⟩
            · exact Or.inr (Or.inr ⟨(if pyContains op 'I' then "1" else "0") ++ opc ++ format2bin addr 12, by simp [spStep, hps, hmr, h0, hlb]⟩)
        by_cases hhex : t1 = "hex"
        · rcases h1 : args[1]? with _ | t2
          · exact Or.inl ⟨.indexError, by simp [fpStep, hlab, h0, hhex, h1], by simp [fpStep, hlab, h0, hhex, h1]⟩
          · rcases hv : hexVal? t2 with _ | v
            · exact Or.inl ⟨.valueError t2, by simp [fpStep, hlab, h0, hhex, h1, hv], by simp [fpStep, hlab, h0, hhex, h1, hv]⟩
            · refine Or.inr (Or.inr ⟨loc + 1,
                [(format2bin loc 12, format2bin v 16)], [(labelName op, loc)],
                ?_, ?_, ?_⟩)
              · simp [fpStep, hlab, h0, hhex, h1, hv, dsets, dset]
              · simp [fpStep, hlab, h0, hhex, h1, hv, dsets, dset]
              · rcases hsp with ⟨e, he⟩ | hskip | ⟨w, hw⟩
                · exact Or.inl ⟨e, he⟩
                · exact Or.inr (Or.inl hskip)
                · exact Or.inr (Or.inr ⟨w, hw, by simp [keysOf]⟩)
        · refine Or.inr (Or.inr ⟨loc + 1,
            [(format2bin loc 12, t1)], [(labelName op, loc)], ?_, ?_, ?_⟩)
          · simp [fpStep, hlab, h0, hhex, dsets, dset]
          · simp [fpStep, hlab, h0, hhex, dsets, dset]
          · rcases hsp with ⟨e, he⟩ | hskip | ⟨w, hw⟩
            · exact Or.inl ⟨e, he⟩
            · exact Or.inr (Or.inl hskip)
            · exact Or.inr (Or.inr ⟨w, hw, by simp [keysOf]⟩)
    | false =>
      by_cases horg : op = "org"
      · subst horg
        rcases h0 : args[0]? with _ | t1
        · exact Or.inl ⟨.indexError, by simp [fpStep, hlab, h0], by simp [fpStep, hlab, h0]⟩
        · rcases hv : hexVal? t1 with _ | v
          · exact Or.inl ⟨.valueError t1, by simp [fpStep, hlab, h0, hv], by simp [fpStep, hlab, h0, hv]⟩
          · refine Or.inr (Or.inr ⟨v, [], [], ?_, ?_, Or.inr (Or.inl ?_)⟩)
            · simp [fpStep, hlab, h0, hv, dsets, dset]
            · simp [fpStep, hlab, h0, hv, dsets, dset]
            · have hp1 : isPseudoInstruction "org" = true := by decide
              have hp2 : pyLower "org" = "org" := by decide
              simp [spStep, hp1, hp2, h0, hv]
      · by_cases hend : op = "end"
        · subst hend
          refine Or.inr (Or.inl ⟨?_, ?_, ?_⟩)
          · simp [fpStep, hlab]
          · simp [fpStep, hlab]
          · have hp1 : isPseudoInstruction "end" = true := by decide
            have hp2 : pyLower "end" = "end" := by decide
            simp [spStep, hp1, hp2]
        · refine Or.inr (Or.inr ⟨loc + 1, [(format2bin loc 12, op)], [],
            ?_, ?_, ?_⟩)
          · simp [fpStep, hlab, horg, hend, dsets, dset]
          · simp [fpStep, hlab, horg, hend, dsets, dset]
          · cases hps : isPseudoInstruction op with
            | true =>
              rcases pseudo_cases op hople hps with h1 | h1 | h1
              · exact absurd h1 horg
              · exact absurd h1 hend
              · subst h1
                refine Or.inr (Or.inl ?_)
                have hd1 : pyLower "dec" = "dec" := by decide
                simp [spStep, hps, hd1]
            | false =>
              rcases hmr : dget mri (pyLower op) with _ | opc
              · exact Or.inr (Or.inl (by simp [spStep, hps, hmr]))
              · rcases h0 : args[0]? with _ | operand
                · exact Or.inl ⟨.indexError, by simp [spStep, hps, hmr, h0]⟩
                · rcases hlb : dget lbls' operand with _ | addr
                  · exact Or.inl ⟨.keyError operand,
                      by simp [spStep, hps, hmr, h0, hlb]⟩
                  · exact Or.inr (Or.inr
                      ⟨(if pyContains op 'I' then "1" else "0") ++ opc ++
                          format2bin addr 12,
                        by simp [spStep, hps, hmr, h0, hlb], by simp [keysOf]⟩)

theorem linesLower_cons (l : Line) (rest : List Line)
    (h : linesLower (l :: rest) = true) :
    lineLower l = true ∧ linesLower rest = true := by
  simpa [linesLower] using h

theorem linesLower_append (a b : List Line) (h : linesLower (a ++ b) = true) :
    linesLower a = true ∧ linesLower b = true := by
  simpa [linesLower] using h

theorem dsets_append {α : Type} (m : Dict α) (a b : Dict α) :
    dsets m (a ++ b) = dsets (dsets m a) b := by
  simp [dsets, List.foldl_append]

/-- A successful first-pass run is characterized by its write trace: the
final tables are the initial ones with the writes applied, and the same
run from any other initial tables succeeds with the same location, halt
flag and writes. -/
theorem fp_run_char (asm : List Line) :
    ∀ loc ast labels locF astF labsF hf,
    linesLower asm = true →
    runSteps fpStep asm (loc, ast, labels) = .ok ((locF, astF, labsF), hf) →
    astF = dsets ast (fpWrites asm loc) ∧
    labsF = dsets labels (fpLWrites asm loc) ∧
    ∀ ast' labels', runSteps fpStep asm (loc, ast', labels') =
      .ok ((locF, dsets ast' (fpWrites asm loc),
        dsets labels' (fpLWrites asm loc)), hf) := by
  induction asm with
  | nil =>
    intro loc ast labels locF astF labsF hf _ hrun
    simp only [runSteps, Except.ok.injEq, Prod.mk.injEq] at hrun
    obtain ⟨⟨h1, h2, h3⟩, h4⟩ := hrun
    subst h1; subst h2; subst h3; subst h4
    exact ⟨rfl, rfl, fun ast' labels' => rfl⟩
  | cons l rest ih =>
    intro loc ast labels locF astF labsF hf hlow hrun
    obtain ⟨hl, hrest⟩ := linesLower_cons l rest hlow
    rcases step_pair [] [] l hl loc ast labels [] with
      ⟨e, he, he0⟩ | ⟨hA, h0, _⟩ | ⟨loc', hw, hlw, hA, h0, _⟩
    · rw [runSteps, he] at hrun
      simp at hrun
    · rw [runSteps, hA] at hrun
      simp only [Except.ok.injEq, Prod.mk.injEq] at hrun
      obtain ⟨⟨h1, h2, h3⟩, h4⟩ := hrun
      subst h1; subst h2; subst h3; subst h4
      have hwr : fpWrites (l :: rest) loc = [] := by simp [fpWrites, h0]
      have hlwr : fpLWrites (l :: rest) loc = [] := by simp [fpLWrites, h0]
      refine ⟨by simp [hwr, dsets], by simp [hlwr, dsets], ?_⟩
      intro ast' labels'
      rcases step_pair [] [] l hl loc ast' labels' [] with
        ⟨e, _, he0'⟩ | ⟨hA', _, _⟩ | ⟨loc', hw', hlw', _, h0', _⟩
      · rw [he0'] at h0; simp at h0
      · rw [runSteps, hA']
        simp [hwr, hlwr, dsets]
      · rw [h0'] at h0; simp at h0
    · rw [runSteps, hA] at hrun
      obtain ⟨ha, hla, hrec⟩ := ih loc' (dsets ast hw) (dsets labels hlw)
        locF astF labsF hf hrest hrun
      have hwr : fpWrites (l :: rest) loc = hw ++ fpWrites rest loc' := by
        simp [fpWrites, h0]
      have hlwr : fpLWrites (l :: rest) loc = hlw ++ fpLWrites rest loc' := by
        simp [fpLWrites, h0]
      refine ⟨by rw [hwr, dsets_append]; exact ha,
        by rw [hlwr, dsets_append]; exact hla, ?_⟩
      intro ast' labels'
      rcases step_pair [] [] l hl loc ast' labels' [] with
        ⟨e, _, he0'⟩ | ⟨_, h0', _⟩ | ⟨loc'2, hw2, hlw2, hA', h0', _⟩
      · rw [he0'] at h0; simp at h0
      · rw [h0'] at h0; simp at h0
      · rw [h0'] at h0
        simp only [Except.ok.injEq, Option.some.injEq, Prod.mk.injEq] at h0
        obtain ⟨h1, h2, h3⟩ := h0
        subst h1; subst h2; subst h3
        rw [runSteps, hA']
        rw [hwr, hlwr, dsets_append, dsets_append]
        exact hrec (dsets ast' hw2) (dsets labels' hlw2)

theorem fpWrites_append (pre rest : List Line) :
    ∀ loc ast labels loc' ast' labels',
    linesLower pre = true →
    runSteps fpStep pre (loc, ast, labels) = .ok ((loc', ast', labels'), false) →
    fpWrites (pre ++ rest) loc = fpWrites pre loc ++ fpWrites rest loc' := by
  induction pre with
  | nil =>
    intro loc ast labels loc' ast' labels' _ hrun
    simp only [runSteps, Except.ok.injEq, Prod.mk.injEq] at hrun
    obtain ⟨⟨h1, _, _⟩, _⟩ := hrun
    subst h1
    simp [fpWrites]
  | cons l pre' ih =>
    intro loc ast labels loc' ast' labels' hlow hrun
    obtain ⟨hl, hrest⟩ := linesLower_cons l pre' hlow
    rcases step_pair [] [] l hl loc ast labels [] with
      ⟨e, he, _⟩ | ⟨hA, h0, _⟩ | ⟨loc'', hw, hlw, hA, h0, _⟩
    · rw [runSteps, he] at hrun
      simp at hrun
    · rw [runSteps, hA] at hrun
      simp only [Except.ok.injEq, Prod.mk.injEq] at hrun
      exact absurd hrun.2 (by simp)
    · rw [runSteps, hA] at hrun
      have := ih loc'' (dsets ast hw) (dsets labels hlw) loc' ast' labels'
        hrest hrun
      rw [List.cons_append]
      rw [show fpWrites (l :: (pre' ++ rest)) loc =
          hw ++ fpWrites (pre' ++ rest) loc'' by simp [fpWrites, h0]]
      rw [show fpWrites (l :: pre') loc = hw ++ fpWrites pre' loc'' by
        simp [fpWrites, h0]]
      rw [this, List.append_assoc]

theorem keysOf_append {α : Type} (a b : Dict α) :
    keysOf (a ++ b) = keysOf a ++ keysOf b := by
  simp [keysOf]

/-- Pass-two simulation: on a lowercase program where pass one succeeds,
the pass-two line loop tracks pass one's location counter, halts on the
same `end` line, writes only to cells pass one wrote (so the key list of
the table is preserved), and leaves every other cell untouched. -/
theorem sim (mri : Dict String) (lbls' : Dict Nat) (asm : List Line) :
    ∀ loc ast labels a',
    linesLower asm = true →
    (∀ k, k ∈ keysOf (fpWrites asm loc) → k ∈ keysOf a') →
    ∀ locF astF labsF hf,
    runSteps fpStep asm (loc, ast, labels) = .ok ((locF, astF, labsF), hf) →
    ∀ locS astS hs,
    runSteps (spStep mri lbls') asm (loc, a') = .ok ((locS, astS), hs) →
    locS = locF ∧ hs = hf ∧ keysOf astS = keysOf a' ∧
    ∀ k, k ∉ keysOf (fpWrites asm loc) → dget astS k = dget a' k := by
  induction asm with
  | nil =>
    intro loc ast labels a' _ _ locF astF labsF hf hfp locS astS hs hsp
    simp only [runSteps, Except.ok.injEq, Prod.mk.injEq] at hfp hsp
    obtain ⟨⟨e1, _, _⟩, e2⟩ := hfp
    obtain ⟨⟨f1, f2⟩, f3⟩ := hsp
    subst e1; subst e2; subst f1; subst f2; subst f3
    exact ⟨rfl, rfl, rfl, fun k _ => rfl⟩
  | cons l rest ih =>
    intro loc ast labels a' hlow hsub locF astF labsF hf hfp locS astS hs hsp
    obtain ⟨hl, hrest⟩ := linesLower_cons l rest hlow
    rcases step_pair mri lbls' l hl loc ast labels a' with
      ⟨e, he, _⟩ | ⟨hA, h0, hS⟩ | ⟨loc', hw, hlw, hA, h0, hspcase⟩
    · rw [runSteps, he] at hfp
      simp at hfp
    · rw [runSteps, hA] at hfp
      rw [runSteps, hS] at hsp
      simp only [Except.ok.injEq, Prod.mk.injEq] at hfp hsp
      obtain ⟨⟨e1, _, _⟩, e4⟩ := hfp
      obtain ⟨⟨f1, f2⟩, f3⟩ := hsp
      subst e1; subst e4; subst f1; subst f2; subst f3
      exact ⟨rfl, rfl, rfl, fun k _ => rfl⟩
    · rw [runSteps, hA] at hfp
      have hwr : fpWrites (l :: rest) loc = hw ++ fpWrites rest loc' := by
        simp [fpWrites, h0]
      rcases hspcase with ⟨e, hSe⟩ | hSskip | ⟨w, hSw, hKmem⟩
      · rw [runSteps, hSe] at hsp
        simp at hsp
      · rw [runSteps, hSskip] at hsp
        have hsub' : ∀ k, k ∈ keysOf (fpWrites rest loc') → k ∈ keysOf a' := by
          intro k hk
          exact hsub k (by
            rw [hwr, keysOf_append]
            exact List.mem_append.mpr (Or.inr hk))
        obtain ⟨c1, c2, c3, c4⟩ := ih loc' (dsets ast hw) (dsets labels hlw) a'
          hrest hsub' locF astF labsF hf hfp locS astS hs hsp
        refine ⟨c1, c2, c3, ?_⟩
        intro k hk
        refine c4 k (fun hmem => hk ?_)
        rw [hwr, keysOf_append]
        exact List.mem_append.mpr (Or.inr hmem)
      · rw [runSteps, hSw] at hsp
        have hKa' : format2bin loc 12 ∈ keysOf a' := by
          refine hsub (format2bin loc 12) ?_
          rw [hwr, keysOf_append]
          exact List.mem_append.mpr (Or.inl hKmem)
        have hkeys : keysOf (dset a' (format2bin loc 12) w) = keysOf a' :=
          keysOf_dset_mem a' (format2bin loc 12) w hKa'
        have hsub' : ∀ k, k ∈ keysOf (fpWrites rest loc') →
            k ∈ keysOf (dset a' (format2bin loc 12) w) := by
          intro k hk
          rw [hkeys]
          exact hsub k (by
            rw [hwr, keysOf_append]
            exact List.mem_append.mpr (Or.inr hk))
        obtain ⟨c1, c2, c3, c4⟩ := ih loc' (dsets ast hw) (dsets labels hlw)
          (dset a' (format2bin loc 12) w) hrest hsub' locF astF labsF hf hfp
          locS astS hs hsp
        refine ⟨c1, c2, c3.trans hkeys, ?_⟩
        intro k hk
        have hknotrest : k ∉ keysOf (fpWrites rest loc') := fun hm =>
          hk (by
            rw [hwr, keysOf_append]
            exact List.mem_append.mpr (Or.inr hm))
        have hkne : ¬ format2bin loc 12 = k := fun he =>
          hk (by
            rw [hwr, keysOf_append]
            exact List.mem_append.mpr (Or.inl (he ▸ hKmem)))
        rw [c4 k hknotrest, dget_dset, if_neg hkne]

/-- Unfolding of `assemble` on a comment-free program whose first pass
succeeds: the output is pass two's table when the `end` break fired, and
the untouched initial `__bin` (empty) otherwise. -/
theorem assemble_eq (mri rri ioi : Dict String) (asm : List Line)
    (locF : Nat) (astF : Dict String) (labsF : Dict Nat) (hf : Bool)
    (hc : rmComments asm = asm)
    (hfp : runSteps fpStep asm (0, ([] : Dict String), ([] : Dict Nat)) =
      .ok ((locF, astF, labsF), hf)) :
    assemble mri rri ioi asm =
      match runSteps (spStep mri labsF) asm (0, sweep rri ioi astF) with
      | .error e => .error e
      | .ok ((_, astS), halted) =>
        .ok (if halted then astS else ([] : Dict String)) := by
  unfold assemble assembleRun
  simp only [hc, hfp]
  cases hsp : runSteps (spStep mri labsF) asm (0, sweep rri ioi astF) with
  | error e => rfl
  | ok r =>
    obtain ⟨⟨locS, astS⟩, hs⟩ := r
    cases hs <;> rfl


theorem runSteps_cons_cont {σ : Type}
    (step : σ → Line → Except AsmErr (Option σ)) (l : Line)
    (rest : List Line) (s s' : σ) (h : step s l = .ok (some s')) :
    runSteps step (l :: rest) s = runSteps step rest s' := by
  rw [runSteps, h]

theorem runSteps_append_cont {σ : Type}
    (step : σ → Line → Except AsmErr (Option σ)) (pre rest : List Line)
    (s s' : σ) (h : runSteps step pre s = .ok (s', false)) :
    runSteps step (pre ++ rest) s = runSteps step rest s' := by
  rw [runSteps_append, h]

/-- If pass one writes the value `v` at key `K` while processing `line`,
no other line writes `K` in either pass, pass two's line loop skips
`line`, and the program reaches an `end` directive, then the assembled
output maps `K` to the swept value of `v`. -/
theorem cellFinal (mri rri ioi : Dict String) (pre post : List Line)
    (line : Line)
    (loc loc₂ : Nat) (astP ast₂ hw : Dict String)
    (labsP labs₂ : Dict Nat) (hlw : Dict Nat) (K v : String)
    (locF : Nat) (astF : Dict String) (labsF : Dict Nat) (out : Dict String)
    (hc : rmComments (pre ++ line :: post) = pre ++ line :: post)
    (hlow : linesLower (pre ++ line :: post) = true)
    (hfp_pre : runSteps fpStep pre (0, ([] : Dict String), ([] : Dict Nat)) =
      .ok ((loc, astP, labsP), false))
    (hfp_line : fpStep (loc, astP, labsP) line = .ok (some (loc₂, ast₂, labs₂)))
    (hfp_line0 : fpStep (loc, ([] : Dict String), ([] : Dict Nat)) line =
      .ok (some (loc₂, hw, hlw)))
    (hfp_post : runSteps fpStep post (loc₂, ast₂, labs₂) =
      .ok ((locF, astF, labsF), true))
    (hsp_line : ∀ a', spStep mri labsF (loc, a') line = .ok (some (loc₂, a')))
    (hKval : dget ast₂ K = some v)
    (hKpre : K ∉ keysOf (fpWrites pre 0))
    (hKpost : K ∉ keysOf (fpWrites post loc₂))
    (hout : assemble mri rri ioi (pre ++ line :: post) = .ok out) :
    dget out K = some (sweepCell rri ioi v) := by
  obtain ⟨hlowpre, hlowrest⟩ := linesLower_append pre (line :: post) hlow
  obtain ⟨hlowline, hlowpost⟩ := linesLower_cons line post hlowrest
  have hfp_full : runSteps fpStep (pre ++ line :: post)
      (0, ([] : Dict String), ([] : Dict Nat)) =
      .ok ((locF, astF, labsF), true) := by
    rw [runSteps_append_cont fpStep pre (line :: post) _ _ hfp_pre,
      runSteps_cons_cont fpStep line post _ _ hfp_line]
    exact hfp_post
  have hchar_post := fp_run_char post loc₂ ast₂ labs₂ locF astF labsF true
    hlowpost hfp_post
  have hKastF : dget astF K = some v := by
    rw [hchar_post.1, dget_dsets,
      lastVal_eq_none_of_not_mem (fpWrites post loc₂) K hKpost]
    exact hKval
  have hwfull : fpWrites (pre ++ line :: post) 0 =
      fpWrites pre 0 ++ (hw ++ fpWrites post loc₂) := by
    rw [fpWrites_append pre (line :: post) 0 [] [] loc astP labsP hlowpre
      hfp_pre]
    congr 1
    simp [fpWrites, hfp_line0]
  have hchar_full := fp_run_char (pre ++ line :: post) 0 [] [] locF astF labsF
    true hlow hfp_full
  have hsub_all : ∀ k, k ∈ keysOf (fpWrites (pre ++ line :: post) 0) →
      k ∈ keysOf (sweep rri ioi astF) := by
    intro k hk
    rw [keysOf_sweep, hchar_full.1]
    exact mem_keysOf_dsets (fpWrites (pre ++ line :: post) 0) [] k hk
  rw [assemble_eq mri rri ioi (pre ++ line :: post) locF astF labsF true hc
    hfp_full] at hout
  cases hsp_full : runSteps (spStep mri labsF) (pre ++ line :: post)
      (0, sweep rri ioi astF) with
  | error e =>
    rw [hsp_full] at hout
    simp at hout
  | ok r =>
    obtain ⟨⟨locS, astS⟩, hs⟩ := r
    rw [hsp_full] at hout
    obtain ⟨hlocS, hhs, hkeysS, _⟩ := sim mri labsF (pre ++ line :: post) 0
      [] [] (sweep rri ioi astF) hlow hsub_all locF astF labsF true hfp_full
      locS astS hs hsp_full
    subst hhs
    have hout' : out = astS := by
      simpa using hout.symm
    subst hout'
    cases hsp_pre : runSteps (spStep mri labsF) pre (0, sweep rri ioi astF) with
    | error e =>
      rw [runSteps_append, hsp_pre] at hsp_full
      simp at hsp_full
    | ok rp =>
      obtain ⟨⟨locSP, astSP⟩, hsP⟩ := rp
      have hsubpre : ∀ k, k ∈ keysOf (fpWrites pre 0) →
          k ∈ keysOf (sweep rri ioi astF) := by
        intro k hk
        refine hsub_all k ?_
        rw [hwfull, keysOf_append]
        exact List.mem_append.mpr (Or.inl hk)
      cases hsP with
      | true =>
        obtain ⟨_, hflag, _, _⟩ := sim mri labsF pre 0 [] []
          (sweep rri ioi astF) hlowpre hsubpre loc astP labsP false hfp_pre
          locSP astSP true hsp_pre
        simp at hflag
      | false =>
        obtain ⟨hlocSP, _, hkeysSP, hdgetSP⟩ := sim mri labsF pre 0 [] []
          (sweep rri ioi astF) hlowpre hsubpre loc astP labsP false hfp_pre
          locSP astSP false hsp_pre
        subst hlocSP
        rw [runSteps_append_cont (spStep mri labsF) pre (line :: post) _ _
            hsp_pre,
          runSteps_cons_cont (spStep mri labsF) line post _ _
            (hsp_line astSP)] at hsp_full
        have hsubpost : ∀ k, k ∈ keysOf (fpWrites post loc₂) →
            k ∈ keysOf astSP := by
          intro k hk
          rw [hkeysSP]
          refine hsub_all k ?_
          rw [hwfull, keysOf_append, keysOf_append]
          exact List.mem_append.mpr (Or.inr (List.mem_append.mpr (Or.inr hk)))
        obtain ⟨_, _, _, hdgetS⟩ := sim mri labsF post loc₂ ast₂ labs₂ astSP
          hlowpost hsubpost locF astF labsF true hfp_post locS out true
          hsp_full
        rw [hdgetS K hKpost, hdgetSP K hKpre, dget_sweep, hKastF]
        rfl

/-! ### Claims -/

/-- C1 (code bug): the indirect-addressing branch is dead code.  For
the lowercase program `ldai x` (label `x` at location 5) with `ldai` in
the memory-reference table, the assembled word starts with `0`, not `1`:
`'I' in opcode` tests for an uppercase letter the lowercased token stream
never contains, so the mode bit the claim requires (`1010000000000101`)
is never produced. -/
theorem c1_indirect_marker_dead :
    assemble [("lda", "010"), ("ldai", "010")] [] []
      [["ldai", "x"], ["org", "5"], ["x,", "hex", "1"], ["end"]] =
      .ok [("000000000000", "0010000000000101"),
        ("000000000101", "0000000000000001")] ∧
    "0010000000000101" ≠ "1010000000000101" :=
  ⟨rfl, by decide⟩

/-- C2 (counterexample): on input without an end directive the
returned mapping is empty even though pass one assigned location 0
(its run writes the cell `000000000000` and ends without halting). -/
theorem c2_no_end_empty_output :
    assemble [] [("cle", "0111100000000000")] [] [["cle"]] =
      .ok ([] : Dict String) ∧
    runSteps fpStep [["cle"]] (0, ([] : Dict String), ([] : Dict Nat)) =
      .ok ((1, [("000000000000", "cle")], []), false) :=
  ⟨rfl, rfl⟩

/-- C4 (counterexample): a mnemonic absent from all three instruction
tables does not signal any failure; assembly succeeds and the raw token
is silently left in the output mapping. -/
theorem c4_unknown_mnemonic_silent :
    assemble [] [] [] [["foo"], ["end"]] = .ok [("000000000000", "foo")] :=
  rfl

/-- C4 (amended): when pass two's memory-reference branch reaches a
line whose operand label is missing from `__label_addresses`, assembly
aborts with the `KeyError` carrying the operand token (no line position),
and the remaining input is not processed. -/
theorem c4_missing_label_aborts (mri rri ioi : Dict String)
    (pre post : List Line) (op operand opc : String) (args : List String)
    (locF loc : Nat) (astF astS : Dict String) (labsF : Dict Nat) (hf : Bool)
    (hc : rmComments (pre ++ (op :: args) :: post) =
      pre ++ (op :: args) :: post)
    (hfp : runSteps fpStep (pre ++ (op :: args) :: post)
      (0, ([] : Dict String), ([] : Dict Nat)) = .ok ((locF, astF, labsF), hf))
    (hsp_pre : runSteps (spStep mri labsF) pre (0, sweep rri ioi astF) =
      .ok ((loc, astS), false))
    (hps : isPseudoInstruction op = false)
    (hmri : dget mri (pyLower op) = some opc)
    (harg : args[0]? = some operand)
    (hlab : dget labsF operand = none) :
    assemble mri rri ioi (pre ++ (op :: args) :: post) =
      .error (.keyError operand) := by
  rw [assemble_eq mri rri ioi _ locF astF labsF hf hc hfp]
  rw [runSteps_append_cont (spStep mri labsF) pre ((op :: args) :: post) _ _
    hsp_pre]
  rw [runSteps]
  rw [show spStep mri labsF (loc, astS) (op :: args) =
      .error (.keyError operand) by simp [spStep, hps, hmri, harg, hlab]]

/-- Witness for the amended C4: `lda x` with `x` never defined aborts with
the `KeyError` naming `x`. -/
theorem c4_missing_label_aborts_w :
    assemble [("lda", "010")] [] [] [["lda", "x"], ["end"]] =
      .error (.keyError "x") :=
  c4_missing_label_aborts [("lda", "010")] [] [] [] [["end"]] "lda" "x" "010"
    ["x"] 1 0 [("000000000000", "lda")] [("000000000000", "lda")] [] true
    rfl rfl rfl (by decide) rfl rfl rfl

/-- C5: the concrete scenario `org 100 / cle / end` with the
register-reference table mapping `cle` assembles to exactly the mapping
sending `000100000000` to the CLE encoding. -/
theorem c5_concrete_scenario :
    assemble [] [("cle", "0111100000000000")] []
      [["org", "100"], ["cle"], ["end"]] =
      .ok [("000100000000", "0111100000000000")] :=
  rfl

/-- C7 (counterexample): a `hex` literal whose 16-bit rendering
happens to be a key of the register-reference table is rewritten by the
value-based sweep, so the output is not independent of the tables. -/
theorem c7_table_dependent :
    assemble [] [("0000000000000011", "1111111111111111")] []
      [["x,", "hex", "3"], ["end"]] =
      .ok [("000000000000", "1111111111111111")] ∧
    format2bin 3 16 = "0000000000000011" ∧
    "1111111111111111" ≠ "0000000000000011" :=
  ⟨rfl, rfl, by decide⟩

/-- C8: in both passes, a line whose first token is the origin
directive sets the location counter to exactly the hexadecimal value of
its second token, performs no increment, and writes nothing into any
table. -/
theorem c8_org_sets_location (mri : Dict String) (lbls : Dict Nat)
    (loc v : Nat) (ast : Dict String) (labels : Dict Nat) (a' : Dict String)
    (args : List String) (t : String)
    (h0 : args[0]? = some t) (hv : hexVal? t = some v) :
    fpStep (loc, ast, labels) ("org" :: args) = .ok (some (v, ast, labels)) ∧
    spStep mri lbls (loc, a') ("org" :: args) = .ok (some (v, a')) := by
  constructor
  · have hlab : islabel "org" = false := by decide
    simp [fpStep, hlab, h0, hv]
  · have hp1 : isPseudoInstruction "org" = true := by decide
    have hp2 : pyLower "org" = "org" := by decide
    simp [spStep, hp1, hp2, h0, hv]

/-- Witness for C8 at `org 100` from location 7: both passes jump to
location 256 with unchanged tables. -/
theorem c8_org_sets_location_w :
    fpStep (7, ([] : Dict String), ([] : Dict Nat)) ("org" :: ["100"]) =
      .ok (some (256, [], [])) ∧
    spStep [] [] (7, ([] : Dict String)) ("org" :: ["100"]) =
      .ok (some (256, [])) :=
  c8_org_sets_location [] [] 7 256 [] [] [] ["100"] "100" rfl rfl

/-- C10: a labeled line with no token after the label makes pass one
fail with the out-of-range subscript `line[1]` (and a labeled `hex` line
with no third token fails at `line[2]`); the error aborts the whole first
pass, so neither the label nor any cell is recorded. -/
theorem c10_label_without_operand (pre post : List Line) (lbl : String)
    (loc : Nat) (ast : Dict String) (labels : Dict Nat)
    (hlab : islabel lbl = true)
    (hpre : runSteps fpStep pre (0, ([] : Dict String), ([] : Dict Nat)) =
      .ok ((loc, ast, labels), false)) :
    fpStep (loc, ast, labels) [lbl] = .error .indexError ∧
    fpStep (loc, ast, labels) [lbl, "hex"] = .error .indexError ∧
    runSteps fpStep (pre ++ [lbl] :: post)
      (0, ([] : Dict String), ([] : Dict Nat)) = .error .indexError := by
  have h1 : fpStep (loc, ast, labels) [lbl] = .error .indexError := by
    simp [fpStep, hlab]
  refine ⟨h1, ?_, ?_⟩
  · simp [fpStep, hlab]
  · rw [runSteps_append_cont fpStep pre ([lbl] :: post) _ _ hpre, runSteps, h1]

/-- Witness for C10: the one-line program `x,` aborts pass one with the
subscript error and records nothing. -/
theorem c10_label_without_operand_w :
    fpStep (0, ([] : Dict String), ([] : Dict Nat)) ["x,"] =
      .error .indexError ∧
    fpStep (0, ([] : Dict String), ([] : Dict Nat)) ["x,", "hex"] =
      .error .indexError ∧
    runSteps fpStep ([] ++ ["x,"] :: [])
      (0, ([] : Dict String), ([] : Dict Nat)) = .error .indexError :=
  c10_label_without_operand [] [] "x," 0 [] [] (by decide) rfl

/-- C3: a line `label, m ...` whose second token `m` is a
memory-reference mnemonic (not `hex`, and not also a register-reference
or I/O mnemonic) leaves the raw string `m` in the final output at that
line's location: pass two's memory-reference branch keys on the first
token — the label — and never on `m`.  The hypotheses pin down the usual
well-formed frame: lowercase comment-free tokens, the program reaches an
`end` directive, no other line writes this location key, and the label
token itself is not a memory-reference key. -/
theorem c3_labeled_mri_unresolved (mri rri ioi : Dict String)
    (pre post : List Line) (lbl m : String) (tail : List String)
    (loc : Nat) (astP : Dict String) (labsP : Dict Nat)
    (locF : Nat) (astF : Dict String) (labsF : Dict Nat) (out : Dict String)
    (hc : rmComments (pre ++ (lbl :: m :: tail) :: post) =
      pre ++ (lbl :: m :: tail) :: post)
    (hlow : linesLower (pre ++ (lbl :: m :: tail) :: post) = true)
    (hlab : islabel lbl = true)
    (hm : m ≠ "hex")
    (_hmri_m : (dget mri m).isSome = true)
    (hrri : dget rri m = none)
    (hioi : dget ioi m = none)
    (hmri_lbl : dget mri lbl = none)
    (hfp_pre : runSteps fpStep pre (0, ([] : Dict String), ([] : Dict Nat)) =
      .ok ((loc, astP, labsP), false))
    (hfp_post : runSteps fpStep post (loc + 1,
      dset astP (format2bin loc 12) m, dset labsP (labelName lbl) loc) =
      .ok ((locF, astF, labsF), true))
    (hKpre : format2bin loc 12 ∉ keysOf (fpWrites pre 0))
    (hKpost : format2bin loc 12 ∉ keysOf (fpWrites post (loc + 1)))
    (hout : assemble mri rri ioi (pre ++ (lbl :: m :: tail) :: post) =
      .ok out) :
    dget out (format2bin loc 12) = some m := by
  have hlowline : lineLower (lbl :: m :: tail) = true :=
    (linesLower_cons _ post
      (linesLower_append pre ((lbl :: m :: tail) :: post) hlow).2).1
  have hlble : pyLower lbl = lbl := lineLower_head lbl (m :: tail) hlowline
  have hsw : sweepCell rri ioi m = m := by simp [sweepCell, hrri, hioi]
  have hfp_line : fpStep (loc, astP, labsP) (lbl :: m :: tail) =
      .ok (some (loc + 1, dset astP (format2bin loc 12) m,
        dset labsP (labelName lbl) loc)) := by
    simp [fpStep, hlab, hm]
  have hfp_line0 : fpStep (loc, ([] : Dict String), ([] : Dict Nat))
      (lbl :: m :: tail) = .ok (some (loc + 1, [(format2bin loc 12, m)],
        [(labelName lbl, loc)])) := by
    simp [fpStep, hlab, hm, dset]
  have hsp_line : ∀ a', spStep mri labsF (loc, a') (lbl :: m :: tail) =
      .ok (some (loc + 1, a')) := by
    intro a'
    have hps : isPseudoInstruction lbl = false :=
      label_not_pseudo lbl hlab hlble
    simp [spStep, hps, hlble, hmri_lbl]
  have hfin := cellFinal mri rri ioi pre post (lbl :: m :: tail) loc (loc + 1)
    astP (dset astP (format2bin loc 12) m) [(format2bin loc 12, m)] labsP
    (dset labsP (labelName lbl) loc) [(labelName lbl, loc)]
    (format2bin loc 12) m locF astF labsF out hc hlow hfp_pre hfp_line
    hfp_line0 hfp_post hsp_line (by rw [dget_dset]; simp) hKpre hKpost hout
  rw [hfin, hsw]

/-- Witness for C3: the program `x, lda y / y, hex 1 / end` with `lda` in
the memory-reference table leaves the raw token `lda` at location 0. -/
theorem c3_labeled_mri_unresolved_w :
    dget [("000000000000", "lda"), ("000000000001", "0000000000000001")]
      (format2bin 0 12) = some "lda" :=
  c3_labeled_mri_unresolved [("lda", "010")] [] [] []
    [["y,", "hex", "1"], ["end"]] "x," "lda" ["y"] 0 [] [] 2
    [("000000000000", "lda"), ("000000000001", "0000000000000001")]
    [("x", 0), ("y", 1)]
    [("000000000000", "lda"), ("000000000001", "0000000000000001")]
    rfl (by decide) (by decide) (by decide)
    (by decide) rfl rfl rfl rfl rfl (by decide) (by decide) rfl

/-- C6: a line consisting solely of a register-reference or I/O
mnemonic (no label, not `org`/`end`, not a memory-reference key) ends up
in the final output, at that line's location, as exactly the 16-bit word
the corresponding table provides — the I/O table winning when the
mnemonic is in both, as in the source's sweep.  The frame hypotheses are
as in C3. -/
theorem c6_bare_rri_ioi (mri rri ioi : Dict String)
    (pre post : List Line) (v w : String)
    (loc : Nat) (astP : Dict String) (labsP : Dict Nat)
    (locF : Nat) (astF : Dict String) (labsF : Dict Nat) (out : Dict String)
    (hc : rmComments (pre ++ [v] :: post) = pre ++ [v] :: post)
    (hlow : linesLower (pre ++ [v] :: post) = true)
    (hnl : islabel v = false)
    (hno : v ≠ "org") (hne : v ≠ "end")
    (htab : dget ioi v = some w ∨ (dget ioi v = none ∧ dget rri v = some w))
    (hmri_v : dget mri v = none)
    (hfp_pre : runSteps fpStep pre (0, ([] : Dict String), ([] : Dict Nat)) =
      .ok ((loc, astP, labsP), false))
    (hfp_post : runSteps fpStep post
      (loc + 1, dset astP (format2bin loc 12) v, labsP) =
      .ok ((locF, astF, labsF), true))
    (hKpre : format2bin loc 12 ∉ keysOf (fpWrites pre 0))
    (hKpost : format2bin loc 12 ∉ keysOf (fpWrites post (loc + 1)))
    (hout : assemble mri rri ioi (pre ++ [v] :: post) = .ok out) :
    dget out (format2bin loc 12) = some w := by
  have hlowline : lineLower [v] = true :=
    (linesLower_cons _ post (linesLower_append pre ([v] :: post) hlow).2).1
  have hvle : pyLower v = v := lineLower_head v [] hlowline
  have hsw : sweepCell rri ioi v = w := by
    rcases htab with h | ⟨h1, h2⟩
    · simp [sweepCell, h]
    · simp [sweepCell, h1, h2]
  have hfp_line : fpStep (loc, astP, labsP) [v] =
      .ok (some (loc + 1, dset astP (format2bin loc 12) v, labsP)) := by
    simp [fpStep, hnl, hno, hne]
  have hfp_line0 : fpStep (loc, ([] : Dict String), ([] : Dict Nat)) [v] =
      .ok (some (loc + 1, [(format2bin loc 12, v)], [])) := by
    simp [fpStep, hnl, hno, hne, dset]
  have hsp_line : ∀ a', spStep mri labsF (loc, a') [v] =
      .ok (some (loc + 1, a')) := by
    intro a'
    cases hps : isPseudoInstruction v with
    | false => simp [spStep, hps, hvle, hmri_v]
    | true =>
      rcases pseudo_cases v hvle hps with h | h | h
      · exact absurd h hno
      · exact absurd h hne
      · subst h
        have hd1 : pyLower "dec" = "dec" := by decide
        simp [spStep, hps, hd1]
  have hfin := cellFinal mri rri ioi pre post [v] loc (loc + 1)
    astP (dset astP (format2bin loc 12) v) [(format2bin loc 12, v)] labsP
    labsP [] (format2bin loc 12) v locF astF labsF out hc hlow hfp_pre
    hfp_line hfp_line0 hfp_post hsp_line (by rw [dget_dset]; simp)
    hKpre hKpost hout
  rw [hfin, hsw]

/-- Witness for C6: the bare `cle` line of the C5 scenario resolves to
exactly the table encoding. -/
theorem c6_bare_rri_ioi_w :
    dget [("000100000000", "0111100000000000")] (format2bin 256 12) =
      some "0111100000000000" :=
  c6_bare_rri_ioi [] [("cle", "0111100000000000")] [] [["org", "100"]]
    [["end"]] "cle" "0111100000000000" 256 [] [] 257
    [("000100000000", "cle")] [] [("000100000000", "0111100000000000")]
    rfl (by decide) (by decide) (by decide) (by decide)
    (Or.inr ⟨rfl, rfl⟩) rfl rfl rfl (by decide) (by decide) rfl

/-- C7 (amended): a labeled `hex` line stores the 16-bit zero-padded
binary rendering of its hexadecimal operand, and the final output holds
exactly that string provided the rendered string is not itself a key of
the register-reference or I/O tables (the value-based sweep would replace
it) and the label token is not a memory-reference key.  No other
hypothesis mentions the tables' contents. -/
theorem c7_hex_literal_guarded (mri rri ioi : Dict String)
    (pre post : List Line) (lbl t2 : String) (tail : List String) (hv : Nat)
    (loc : Nat) (astP : Dict String) (labsP : Dict Nat)
    (locF : Nat) (astF : Dict String) (labsF : Dict Nat) (out : Dict String)
    (hc : rmComments (pre ++ (lbl :: "hex" :: t2 :: tail) :: post) =
      pre ++ (lbl :: "hex" :: t2 :: tail) :: post)
    (hlow : linesLower (pre ++ (lbl :: "hex" :: t2 :: tail) :: post) = true)
    (hlab : islabel lbl = true)
    (hhex : hexVal? t2 = some hv)
    (hmri_lbl : dget mri lbl = none)
    (hrri : dget rri (format2bin hv 16) = none)
    (hioi : dget ioi (format2bin hv 16) = none)
    (hfp_pre : runSteps fpStep pre (0, ([] : Dict String), ([] : Dict Nat)) =
      .ok ((loc, astP, labsP), false))
    (hfp_post : runSteps fpStep post (loc + 1,
      dset astP (format2bin loc 12) (format2bin hv 16),
      dset labsP (labelName lbl) loc) = .ok ((locF, astF, labsF), true))
    (hKpre : format2bin loc 12 ∉ keysOf (fpWrites pre 0))
    (hKpost : format2bin loc 12 ∉ keysOf (fpWrites post (loc + 1)))
    (hout : assemble mri rri ioi (pre ++ (lbl :: "hex" :: t2 :: tail) :: post)
      = .ok out) :
    dget out (format2bin loc 12) = some (format2bin hv 16) := by
  have hlowline : lineLower (lbl :: "hex" :: t2 :: tail) = true :=
    (linesLower_cons _ post
      (linesLower_append pre ((lbl :: "hex" :: t2 :: tail) :: post) hlow).2).1
  have hlble : pyLower lbl = lbl := lineLower_head lbl _ hlowline
  have hsw : sweepCell rri ioi (format2bin hv 16) = format2bin hv 16 := by
    simp [sweepCell, hrri, hioi]
  have hfp_line : fpStep (loc, astP, labsP) (lbl :: "hex" :: t2 :: tail) =
      .ok (some (loc + 1, dset astP (format2bin loc 12) (format2bin hv 16),
        dset labsP (labelName lbl) loc)) := by
    simp [fpStep, hlab, hhex]
  have hfp_line0 : fpStep (loc, ([] : Dict String), ([] : Dict Nat))
      (lbl :: "hex" :: t2 :: tail) = .ok (some (loc + 1,
        [(format2bin loc 12, format2bin hv 16)], [(labelName lbl, loc)])) := by
    simp [fpStep, hlab, hhex, dset]
  have hsp_line : ∀ a', spStep mri labsF (loc, a') (lbl :: "hex" :: t2 :: tail)
      = .ok (some (loc + 1, a')) := by
    intro a'
    have hps : isPseudoInstruction lbl = false :=
      label_not_pseudo lbl hlab hlble
    simp [spStep, hps, hlble, hmri_lbl]
  have hfin := cellFinal mri rri ioi pre post (lbl :: "hex" :: t2 :: tail)
    loc (loc + 1) astP
    (dset astP (format2bin loc 12) (format2bin hv 16))
    [(format2bin loc 12, format2bin hv 16)] labsP
    (dset labsP (labelName lbl) loc) [(labelName lbl, loc)]
    (format2bin loc 12) (format2bin hv 16) locF astF labsF out hc hlow
    hfp_pre hfp_line hfp_line0 hfp_post hsp_line (by rw [dget_dset]; simp)
    hKpre hKpost hout
  rw [hfin, hsw]

/-- Witness for the amended C7: `x, hex 1a / end` stores
`0000000000011010` at location 0. -/
theorem c7_hex_literal_guarded_w :
    dget [("000000000000", "0000000000011010")] (format2bin 0 12) =
      some (format2bin 26 16) :=
  c7_hex_literal_guarded [] [] [] [] [["end"]] "x," "1a" [] 26 0 [] [] 1
    [("000000000000", "0000000000011010")] [("x", 0)]
    [("000000000000", "0000000000011010")]
    rfl (by decide) (by decide) rfl rfl rfl rfl rfl rfl
    (by decide) (by decide) rfl

/-- C2 (amended): once pass two reaches an end directive, the
returned mapping's keys are exactly the keys pass one assigned (every
assigned location is covered); without an end directive the returned
mapping is the untouched empty `__bin` (see `c2_no_end_empty_output`). -/
theorem c2_coverage_with_end (mri rri ioi : Dict String) (asm : List Line)
    (locF : Nat) (astF : Dict String) (labsF : Dict Nat) (out : Dict String)
    (hc : rmComments asm = asm)
    (hlow : linesLower asm = true)
    (hfp : runSteps fpStep asm (0, ([] : Dict String), ([] : Dict Nat)) =
      .ok ((locF, astF, labsF), true))
    (hout : assemble mri rri ioi asm = .ok out) :
    keysOf out = keysOf astF := by
  have hchar := fp_run_char asm 0 [] [] locF astF labsF true hlow hfp
  have hsub : ∀ k, k ∈ keysOf (fpWrites asm 0) →
      k ∈ keysOf (sweep rri ioi astF) := by
    intro k hk
    rw [keysOf_sweep, hchar.1]
    exact mem_keysOf_dsets _ [] k hk
  rw [assemble_eq mri rri ioi asm locF astF labsF true hc hfp] at hout
  cases hsp : runSteps (spStep mri labsF) asm (0, sweep rri ioi astF) with
  | error e =>
    rw [hsp] at hout
    simp at hout
  | ok r =>
    obtain ⟨⟨locS, astS⟩, hs⟩ := r
    rw [hsp] at hout
    obtain ⟨_, hhs, hkeys, _⟩ := sim mri labsF asm 0 [] []
      (sweep rri ioi astF) hlow hsub locF astF labsF true hfp locS astS hs hsp
    subst hhs
    have hout' : out = astS := by simpa using hout.symm
    subst hout'
    rw [hkeys, keysOf_sweep]

/-- Witness for the amended C2: in the C5 scenario the single assigned
location `000100000000` is exactly the output's key set. -/
theorem c2_coverage_with_end_w :
    keysOf [("000100000000", "0111100000000000")] =
      keysOf [("000100000000", "cle")] :=
  c2_coverage_with_end [] [("cle", "0111100000000000")] []
    [["org", "100"], ["cle"], ["end"]] 257 [("000100000000", "cle")] []
    [("000100000000", "0111100000000000")] rfl (by decide) rfl rfl

theorem takeWhile_self_idem {α : Type} (p : α → Bool) (l : List α) :
    List.takeWhile p (List.takeWhile p l) = List.takeWhile p l := by
  induction l with
  | nil => rfl
  | cons a t ih =>
    cases hp : p a
    · simp [List.takeWhile_cons, hp]
    · simp [List.takeWhile_cons, hp, ih]

theorem rmComments_idem (asm : List Line) :
    rmComments (rmComments asm) = rmComments asm := by
  unfold rmComments
  rw [List.map_map]
  apply List.map_congr_left
  intro l _
  exact takeWhile_self_idem _ l

theorem lineLower_rmCommentsLine (l : Line) (h : lineLower l = true) :
    lineLower (rmCommentsLine l) = true := by
  rw [lineLower, List.all_eq_true] at h ⊢
  intro t ht
  exact h t ((List.takeWhile_sublist _).subset ht)

theorem linesLower_rmComments (asm : List Line) (h : linesLower asm = true) :
    linesLower (rmComments asm) = true := by
  rw [linesLower, List.all_eq_true] at h ⊢
  intro l hl
  obtain ⟨l₀, hl₀, rfl⟩ := List.mem_map.mp hl
  exact lineLower_rmCommentsLine l₀ (h l₀ hl₀)

theorem assembleRun_fp_err (mri rri ioi : Dict String) (s : AsmSt)
    (e : AsmErr)
    (hfp : runSteps fpStep (rmComments s.asm) (0, s.ast, s.labels) =
      .error e) :
    assembleRun mri rri ioi s = .error e := by
  unfold assembleRun
  simp only [hfp]

theorem assembleRun_sp_err (mri rri ioi : Dict String) (s : AsmSt)
    (locF : Nat) (astF : Dict String) (labsF : Dict Nat) (hf : Bool)
    (e : AsmErr)
    (hfp : runSteps fpStep (rmComments s.asm) (0, s.ast, s.labels) =
      .ok ((locF, astF, labsF), hf))
    (hsp : runSteps (spStep mri labsF) (rmComments s.asm)
      (0, sweep rri ioi astF) = .error e) :
    assembleRun mri rri ioi s = .error e := by
  unfold assembleRun
  simp only [hfp, hsp]

theorem assembleRun_ok (mri rri ioi : Dict String) (s : AsmSt)
    (locF : Nat) (astF : Dict String) (labsF : Dict Nat) (hf : Bool)
    (locS : Nat) (astS : Dict String) (hs : Bool)
    (hfp : runSteps fpStep (rmComments s.asm) (0, s.ast, s.labels) =
      .ok ((locF, astF, labsF), hf))
    (hsp : runSteps (spStep mri labsF) (rmComments s.asm)
      (0, sweep rri ioi astF) = .ok ((locS, astS), hs)) :
    assembleRun mri rri ioi s =
      .ok (if hs then astS else s.bin,
        ⟨astS, labsF, if hs then astS else s.bin, rmComments s.asm⟩) := by
  unfold assembleRun
  simp only [hfp, hsp]

/-- C9: the two-pass engine is deterministic and idempotent.  After a
successful `assemble` run on a lowercase program (from a freshly
constructed object), running `assemble` again on the mutated object state
— re-stripping comments, re-running both passes over the already-resolved
tables — returns the identical output mapping and leaves the state
unchanged. -/
theorem c9_assemble_idempotent (mri rri ioi : Dict String) (asm : List Line)
    (out : Dict String) (s1 : AsmSt)
    (hlow : linesLower asm = true)
    (hrun : assembleRun mri rri ioi ⟨[], [], [], asm⟩ = .ok (out, s1)) :
    assembleRun mri rri ioi s1 = .ok (out, s1) := by
  have hlow' : linesLower (rmComments asm) = true :=
    linesLower_rmComments asm hlow
  cases hfp : runSteps fpStep (rmComments asm)
      (0, ([] : Dict String), ([] : Dict Nat)) with
  | error e =>
    rw [assembleRun_fp_err mri rri ioi ⟨[], [], [], asm⟩ e hfp] at hrun
    simp at hrun
  | ok r =>
    obtain ⟨⟨locF, astF, labsF⟩, hf⟩ := r
    cases hsp : runSteps (spStep mri labsF) (rmComments asm)
        (0, sweep rri ioi astF) with
    | error e =>
      rw [assembleRun_sp_err mri rri ioi ⟨[], [], [], asm⟩ locF astF labsF hf
        e hfp hsp] at hrun
      simp at hrun
    | ok r2 =>
      obtain ⟨⟨locS, astS⟩, hs⟩ := r2
      rw [assembleRun_ok mri rri ioi ⟨[], [], [], asm⟩ locF astF labsF hf
        locS astS hs hfp hsp] at hrun
      simp only [Except.ok.injEq, Prod.mk.injEq] at hrun
      obtain ⟨hout_eq, hs1_eq⟩ := hrun
      subst hout_eq
      subst hs1_eq
      obtain ⟨hastF, hlabsF, hfp_all⟩ := fp_run_char (rmComments asm) 0 [] []
        locF astF labsF hf hlow' hfp
      have hsub : ∀ k, k ∈ keysOf (fpWrites (rmComments asm) 0) →
          k ∈ keysOf (sweep rri ioi astF) := by
        intro k hk
        rw [keysOf_sweep, hastF]
        exact mem_keysOf_dsets _ [] k hk
      obtain ⟨_, _, hkeysS, _⟩ := sim mri labsF (rmComments asm) 0 [] []
        (sweep rri ioi astF) hlow' hsub locF astF labsF hf hfp locS astS hs hsp
      have hfp2 := hfp_all astS labsF
      have hastS_fix : dsets astS (fpWrites (rmComments asm) 0) = astF := by
        rw [hastF]
        exact dsets_fix _ astS (by rw [hkeysS, keysOf_sweep, hastF])
      have hlabs_fix : dsets labsF (fpLWrites (rmComments asm) 0) = labsF := by
        rw [hlabsF]
        exact dsets_fix _ _ rfl
      rw [hastS_fix, hlabs_fix] at hfp2
      have hA2 := assembleRun_ok mri rri ioi
        ⟨astS, labsF, if hs then astS else [], rmComments asm⟩
        locF astF labsF hf locS astS hs
        (by
          show runSteps fpStep (rmComments (rmComments asm))
            (0, astS, labsF) = .ok ((locF, astF, labsF), hf)
          rw [rmComments_idem asm]
          exact hfp2)
        (by
          show runSteps (spStep mri labsF) (rmComments (rmComments asm))
            (0, sweep rri ioi astF) = .ok ((locS, astS), hs)
          rw [rmComments_idem asm]
          exact hsp)
      rw [hA2]
      cases hs <;> simp [rmComments_idem]

/-- Witness for C9: re-running `assemble` on the state left by the C5
scenario reproduces the same output and state. -/
theorem c9_assemble_idempotent_w :
    assembleRun [] [("cle", "0111100000000000")] []
      ⟨[("000100000000", "0111100000000000")], [],
        [("000100000000", "0111100000000000")],
        [["org", "100"], ["cle"], ["end"]]⟩ =
      .ok ([("000100000000", "0111100000000000")],
        ⟨[("000100000000", "0111100000000000")], [],
          [("000100000000", "0111100000000000")],
          [["org", "100"], ["cle"], ["end"]]⟩) :=
  c9_assemble_idempotent [] [("cle", "0111100000000000")] []
    [["org", "100"], ["cle"], ["end"]]
    [("000100000000", "0111100000000000")]
    ⟨[("000100000000", "0111100000000000")], [],
      [("000100000000", "0111100000000000")],
      [["org", "100"], ["cle"], ["end"]]⟩
    (by decide) rfl
